import Mathlib

/-!
Verification of the onnxruntime ThreadPool scheduling layer.

The definitions below are a shallow embedding of the C++ sources:
  - the ThreadPool member functions of `threadpool.cc`
    (ParallelFor, Schedule, NumShardsUsedByFixedBlockSizeScheduling,
     NumShardsUsedByTransformRangeConcurrently, the dispatching
     ParallelFor over SchedulingParams, TransformRangeConcurrently,
     ParallelForFixedBlockSizeScheduling, ParallelForWithWorkerId,
     SetStealPartitions);
  - `CreateThreadPool` of `core/util/thread_utils.cc`.

Machine integers (int32_t, int64_t) are modelled as `Int`; the C++
operator `/` on them is truncated division, modelled by `Int.tdiv`.
Effectful calls to a user callback `fn` are modelled by recording the
argument of every invocation; closures handed to the worker engine via
`Schedule` are modelled by recording what each scheduled closure would
invoke.  The external worker engine is assumed to run every scheduled
closure exactly once; the thread count `NumThreads()` and the calling
thread id `CurrentThreadId()` reported by the engine are passed as
explicit parameters.
-/

namespace OnnxThreadPool

/-- Scheduling strategy of the dispatching ParallelFor (threadpool.h):
either cost-based adaptive splitting or fixed-block-size splitting. -/
inductive SchedulingStrategy where
  | kAdaptive
  | kFixedBlockSize
deriving DecidableEq

/-- SchedulingParams: the strategy together with the optional cost per
unit (meaningful for kAdaptive) and the optional block size (meaningful
for kFixedBlockSize). -/
structure SchedulingParams where
  strategy : SchedulingStrategy
  cost_per_unit : Option Int
  block_size : Option Int
deriving DecidableEq

/-- NumShardsUsedByFixedBlockSizeScheduling (threadpool.cc lines 77-83):
returns 1 when block_size <= 0, total <= 1, total <= block_size or
NumThreads() == 1, and otherwise (total + block_size - 1) / block_size
with C++ truncated division. -/
def NumShardsUsedByFixedBlockSizeScheduling
    (numThreads total block_size : Int) : Int :=
  if block_size ≤ 0 ∨ total ≤ 1 ∨ total ≤ block_size ∨ numThreads = 1 then 1
  else (total + block_size - 1).tdiv block_size

/-- The split point of handle_range (threadpool.cc line 128):
mid = first + ((last - first) / 2 + block_size - 1) / block_size * block_size
with C++ truncated division. -/
def splitMid (block_size first last : Int) : Int :=
  first + ((last - first).tdiv 2 + block_size - 1).tdiv block_size * block_size

/-- Bounds on the split point: when 0 < block_size < last - first, the
split point lies at least block_size past first and strictly before
last. -/
theorem splitMid_sub_bounds {block_size first last : Int}
    (hb : 0 < block_size) (hL : block_size < last - first) :
    block_size ≤ splitMid block_size first last - first ∧
      splitMid block_size first last - first < last - first := by
  have hLnn : (0 : Int) ≤ last - first := by omega
  have htd2 : (last - first).tdiv 2 = (last - first) / 2 :=
    Int.tdiv_eq_ediv hLnn (by norm_num)
  have hhalf1 : 1 ≤ (last - first) / 2 := by
    rw [Int.le_ediv_iff_mul_le (by norm_num : (0:Int) < 2)]
    omega
  have hhalf2 : (last - first) / 2 * 2 ≤ last - first :=
    Int.ediv_mul_le _ (by norm_num)
  have hn_nn : (0 : Int) ≤ (last - first) / 2 + block_size - 1 := by omega
  have htdn : ((last - first) / 2 + block_size - 1).tdiv block_size =
      ((last - first) / 2 + block_size - 1) / block_size :=
    Int.tdiv_eq_ediv hn_nn hb.le
  have hmid : splitMid block_size first last - first =
      ((last - first) / 2 + block_size - 1) / block_size * block_size := by
    unfold splitMid
    rw [htd2, htdn]
    ring
  have hq1 : 1 ≤ ((last - first) / 2 + block_size - 1) / block_size := by
    rw [Int.le_ediv_iff_mul_le hb]
    omega
  constructor
  · rw [hmid]
    calc block_size = 1 * block_size := (one_mul block_size).symm
      _ ≤ ((last - first) / 2 + block_size - 1) / block_size * block_size :=
          mul_le_mul_of_nonneg_right hq1 hb.le
  · rw [hmid]
    by_cases hc : (last - first) / 2 ≤ block_size
    · have h2 : ((last - first) / 2 + block_size - 1) / block_size < 2 := by
        rw [Int.ediv_lt_iff_lt_mul hb]
        omega
      calc ((last - first) / 2 + block_size - 1) / block_size * block_size
            ≤ 1 * block_size :=
              mul_le_mul_of_nonneg_right (by omega) hb.le
        _ = block_size := one_mul block_size
        _ < last - first := hL
    · have hdn : ((last - first) / 2 + block_size - 1) / block_size * block_size
          ≤ (last - first) / 2 + block_size - 1 :=
        Int.ediv_mul_le _ hb.ne.symm
      have hnL : (last - first) / 2 + block_size - 1 < last - first := by omega
      exact lt_of_le_of_lt hdn hnL

/-- The split point offset is a multiple of block_size. -/
theorem splitMid_dvd (block_size first last : Int) :
    block_size ∣ (splitMid block_size first last - first) := by
  unfold splitMid
  exact ⟨((last - first).tdiv 2 + block_size - 1).tdiv block_size,
    by ring⟩

/-- The recursive splitting loop handle_range of
ParallelForFixedBlockSizeScheduling (threadpool.cc lines 125-135),
modelled as the list of leaf ranges on which fn is invoked, in the
order left half before forked right half.  The source only reaches
handle_range when block_size > 0: any other shard count is 1 and is
handled before the recursion starts; the conjunct 0 < block_size in the
guard makes the recursion well-founded and is vacuous at every call
site. -/
def handleRange (block_size first last : Int) : List (Int × Int) :=
  if h : 0 < block_size ∧ block_size < last - first then
    handleRange block_size first (splitMid block_size first last) ++
      handleRange block_size (splitMid block_size first last) last
  else
    [(first, last)]
termination_by (last - first).toNat
decreasing_by
  · obtain ⟨hb, hL⟩ := h
    obtain ⟨h1, h2⟩ := splitMid_sub_bounds hb hL
    omega
  · obtain ⟨hb, hL⟩ := h
    obtain ⟨h1, h2⟩ := splitMid_sub_bounds hb hL
    omega

/-- Unfolding equation of handleRange in the splitting case. -/
theorem handleRange_of_split {block_size first last : Int}
    (hb : 0 < block_size) (hL : block_size < last - first) :
    handleRange block_size first last =
      handleRange block_size first (splitMid block_size first last) ++
        handleRange block_size (splitMid block_size first last) last := by
  rw [handleRange]
  exact dif_pos ⟨hb, hL⟩

/-- Unfolding equation of handleRange in the leaf case. -/
theorem handleRange_of_leaf {block_size first last : Int}
    (h : ¬(0 < block_size ∧ block_size < last - first)) :
    handleRange block_size first last = [(first, last)] := by
  rw [handleRange]
  exact dif_neg h

/-- Result trace of ParallelForFixedBlockSizeScheduling: the list of
(first, last) leaf ranges on which fn is invoked, and whether the root
of the splitting tree (or the single direct call) runs synchronously on
the calling thread rather than being scheduled onto the engine. -/
structure FixedBlockTrace where
  leaves : List (Int × Int)
  syncDirect : Bool
deriving DecidableEq

/-- ParallelForFixedBlockSizeScheduling (threadpool.cc lines 115-146):
if the shard count is 1, invoke fn(0, total) directly on the caller;
otherwise run handle_range(0, total), on the caller when
num_shards_used <= NumThreads() and scheduled onto the engine
otherwise. -/
def ParallelForFixedBlockSizeScheduling
    (numThreads total block_size : Int) : FixedBlockTrace :=
  if NumShardsUsedByFixedBlockSizeScheduling numThreads total block_size = 1 then
    ⟨[(0, total)], true⟩
  else
    ⟨handleRange block_size 0 total,
      decide (NumShardsUsedByFixedBlockSizeScheduling numThreads total block_size
        ≤ numThreads)⟩

/-- Outcome of the dispatching ParallelFor over SchedulingParams
(threadpool.cc lines 89-105): either nothing happens (missing optional
field), or the call is routed to the cost-based adaptive path with the
given total and cost, or to the fixed-block-size path. -/
inductive DispatchResult where
  | noop
  | adaptive (total : Int) (cost_per_unit : Int)
  | fixedBlock (trace : FixedBlockTrace)
deriving DecidableEq

/-- Number of fn invocations a dispatch outcome performs, when this
core determines it: 0 for a no-op, the number of leaf ranges for the
fixed-block-size path; for the adaptive path the partitioning is
delegated to the external engine, hence none. -/
def dispatchInvocationCount : DispatchResult → Option Nat
  | DispatchResult.noop => some 0
  | DispatchResult.adaptive _ _ => none
  | DispatchResult.fixedBlock t => some t.leaves.length

/-- The dispatching ParallelFor(total, scheduling_params, fn)
(threadpool.cc lines 89-105): switch on the strategy; each branch runs
only when its optional field is present, else the call falls through
and returns with nothing done. -/
def ParallelForDispatch (numThreads total : Int)
    (p : SchedulingParams) : DispatchResult :=
  match p.strategy with
  | SchedulingStrategy.kAdaptive =>
    match p.cost_per_unit with
    | some c => DispatchResult.adaptive total c
    | none => DispatchResult.noop
  | SchedulingStrategy.kFixedBlockSize =>
    match p.block_size with
    | some bs =>
      DispatchResult.fixedBlock
        (ParallelForFixedBlockSizeScheduling numThreads total bs)
    | none => DispatchResult.noop

/-- TransformRangeConcurrently (threadpool.cc lines 107-111): delegates
to the dispatching ParallelFor with strategy kFixedBlockSize, no cost
per unit, and the given block size. -/
def TransformRangeConcurrently (numThreads block_size total : Int) :
    DispatchResult :=
  ParallelForDispatch numThreads total
    ⟨SchedulingStrategy.kFixedBlockSize, none, some block_size⟩

/-- NumShardsUsedByTransformRangeConcurrently (threadpool.cc lines
85-87): forwards to NumShardsUsedByFixedBlockSizeScheduling with the
arguments swapped into (total, block_size) order. -/
def NumShardsUsedByTransformRangeConcurrently
    (numThreads block_size total : Int) : Int :=
  NumShardsUsedByFixedBlockSizeScheduling numThreads total block_size

/-- Trace of the uniform-unit ParallelFor(total, fn) (threadpool.cc
lines 49-70): the indices scheduled onto the engine (each scheduled
closure runs fn(index) and then notifies the barrier), the indices run
synchronously on the calling thread, and the expected notification
count of the Barrier when one is constructed. -/
structure SimpleTrace where
  scheduled : List Int
  direct : List Int
  barrier : Option Nat
deriving DecidableEq

/-- ParallelFor(total, fn) for int32_t total (threadpool.cc lines
49-70): no-op for total <= 0; synchronous fn(0) for total == 1;
otherwise a Barrier expecting total - 1 notifications is created,
fn(1) .. fn(total - 1) are scheduled, fn(0) runs on the caller, and
the caller waits on the barrier. -/
def ParallelFor (total : Int) : SimpleTrace :=
  if total ≤ 0 then ⟨[], [], none⟩
  else if total = 1 then ⟨[], [0], none⟩
  else ⟨(List.range (total - 1).toNat).map (fun (k : Nat) => (k : Int) + 1),
    [0], some (total - 1).toNat⟩

/-- The thread count actually used by CreateThreadPool
(thread_utils.cc lines 12-14): a requested size <= 0 is replaced by
max(1, hardware_concurrency / 2). -/
def defaultedPoolSize (hardware_concurrency : Nat)
    (thread_pool_size : Int) : Int :=
  if thread_pool_size ≤ 0 then max 1 ((hardware_concurrency : Int) / 2)
  else thread_pool_size

/-- CreateThreadPool (thread_utils.cc lines 9-23), modelled as the
thread count of the returned pool, or none for the null pointer
returned when the defaulted size is 1. -/
def CreateThreadPool (hardware_concurrency : Nat)
    (thread_pool_size : Int) : Option Int :=
  if defaultedPoolSize hardware_concurrency thread_pool_size = 1 then none
  else some (defaultedPoolSize hardware_concurrency thread_pool_size)

/-- The worker id passed to fn by both ParallelForWithWorkerId variants
(threadpool.cc lines 161-187): CurrentThreadId() + 1. -/
def workerId (currentThreadId : Int) : Int := currentThreadId + 1

/-- SetStealPartitions (threadpool.cc lines 197-204): ORT_ENFORCE that
the pool owns its Eigen engine (eigen_threadpool_ is non-null), then
forward the partitions to that engine.  The fatal precondition failure
is modelled as an error value; the ok value carries exactly what is
forwarded to the engine. -/
def SetStealPartitions (ownsEigenPool : Bool)
    (partitions : List (Nat × Nat)) : Except String (List (Nat × Nat)) :=
  if ownsEigenPool then Except.ok partitions
  else Except.error "ORT_ENFORCE failed: eigen_threadpool_ != nullptr"

/-- Schedule (threadpool.cc lines 72-75): ORT_ENFORCE that the closure
is set (fn != nullptr), then enqueue it on the underlying engine.  The
closure is modelled as an optional value; the ok value carries exactly
what is enqueued. -/
def Schedule {α : Type} (fn : Option α) : Except String α :=
  match fn with
  | some f => Except.ok f
  | none => Except.error "ORT_ENFORCE failed: fn != nullptr"

/-- Tiles first last rs means: rs is a list of consecutive nonempty
half-open ranges whose concatenation is exactly [first, last). -/
def Tiles (first last : Int) : List (Int × Int) → Prop
  | [] => first = last
  | r :: rs => r.1 = first ∧ first < r.2 ∧ Tiles r.2 last rs

/-- A tiling only exists of an interval with nonnegative length. -/
theorem Tiles.le {f l : Int} {rs : List (Int × Int)} (h : Tiles f l rs) :
    f ≤ l := by
  induction rs generalizing f with
  | nil => simp only [Tiles] at h; omega
  | cons r rs ih =>
    simp only [Tiles] at h
    have := ih h.2.2
    omega

/-- Every range of a tiling is nonempty and contained in the tiled
interval. -/
theorem Tiles.bounds {f l : Int} {rs : List (Int × Int)} (h : Tiles f l rs) :
    ∀ r ∈ rs, f ≤ r.1 ∧ r.1 < r.2 ∧ r.2 ≤ l := by
  induction rs generalizing f with
  | nil => intro r hr; simp at hr
  | cons r rs ih =>
    simp only [Tiles] at h
    obtain ⟨h1, h2, h3⟩ := h
    intro s hs
    rcases List.mem_cons.1 hs with rfl | hs'
    · exact ⟨by omega, by omega, Tiles.le h3⟩
    · have := ih h3 s hs'
      omega

/-- Tilings of adjacent intervals concatenate. -/
theorem Tiles.append {f m l : Int} {l1 l2 : List (Int × Int)}
    (h1 : Tiles f m l1) (h2 : Tiles m l l2) : Tiles f l (l1 ++ l2) := by
  induction l1 generalizing f with
  | nil =>
    simp only [Tiles] at h1
    simpa [h1] using h2
  | cons r rs ih =>
    simp only [Tiles] at h1
    simp only [List.cons_append, Tiles]
    exact ⟨h1.1, h1.2.1, ih h1.2.2⟩

/-- A tiling covers exactly the tiled interval: a point lies in
[f, l) iff some range of the tiling contains it. -/
theorem Tiles.mem_iff {f l : Int} {rs : List (Int × Int)} (h : Tiles f l rs)
    (x : Int) :
    (f ≤ x ∧ x < l) ↔ ∃ r, r ∈ rs ∧ r.1 ≤ x ∧ x < r.2 := by
  induction rs generalizing f with
  | nil =>
    simp only [Tiles] at h
    simp
    omega
  | cons r rs ih =>
    simp only [Tiles] at h
    obtain ⟨h1, h2, h3⟩ := h
    constructor
    · rintro ⟨hx1, hx2⟩
      by_cases hxr : x < r.2
      · exact ⟨r, List.mem_cons_self r rs, by omega, hxr⟩
      · obtain ⟨s, hs, hs1, hs2⟩ := (ih h3).1 ⟨by omega, hx2⟩
        exact ⟨s, List.mem_cons_of_mem r hs, hs1, hs2⟩
    · rintro ⟨s, hs, hs1, hs2⟩
      rcases List.mem_cons.1 hs with rfl | hs'
      · have := Tiles.le h3
        omega
      · have hb := Tiles.bounds h3 s hs'
        have := (ih h3).2 ⟨s, hs', hs1, hs2⟩
        omega

/-- The ranges of a tiling are pairwise disjoint, in order. -/
theorem Tiles.pairwise {f l : Int} {rs : List (Int × Int)} (h : Tiles f l rs) :
    List.Pairwise (fun r s => r.2 ≤ s.1) rs := by
  induction rs generalizing f with
  | nil => exact List.Pairwise.nil
  | cons r rs ih =>
    simp only [Tiles] at h
    obtain ⟨h1, h2, h3⟩ := h
    exact List.Pairwise.cons (fun s hs => (Tiles.bounds h3 s hs).1) (ih h3)

/-- handleRange tiles its interval (fuel-indexed induction). -/
theorem handleRange_tiles_aux (N : Nat) :
    ∀ block_size first last : Int, (last - first).toNat ≤ N →
      0 < block_size → first < last →
      Tiles first last (handleRange block_size first last) := by
  induction N with
  | zero => intro bs f l hN hb hfl; omega
  | succ N ih =>
    intro bs f l hN hb hfl
    by_cases hs : bs < l - f
    · rw [handleRange_of_split hb hs]
      obtain ⟨h1, h2⟩ := splitMid_sub_bounds hb hs
      exact Tiles.append
        (ih bs f _ (by omega) hb (by omega))
        (ih bs _ l (by omega) hb (by omega))
    · rw [handleRange_of_leaf (fun hc => hs hc.2)]
      exact ⟨rfl, hfl, rfl⟩

/-- handleRange tiles its interval. -/
theorem handleRange_tiles {block_size first last : Int}
    (hb : 0 < block_size) (hfl : first < last) :
    Tiles first last (handleRange block_size first last) :=
  handleRange_tiles_aux (last - first).toNat block_size first last
    le_rfl hb hfl

/-- Every leaf range of handleRange has length at most block_size
(fuel-indexed induction). -/
theorem handleRange_leaf_le_aux (N : Nat) :
    ∀ block_size first last : Int, (last - first).toNat ≤ N →
      0 < block_size →
      ∀ r ∈ handleRange block_size first last, r.2 - r.1 ≤ block_size := by
  induction N with
  | zero =>
    intro bs f l hN hb r hr
    rw [handleRange_of_leaf (by omega)] at hr
    simp at hr
    subst hr
    show l - f ≤ bs
    omega
  | succ N ih =>
    intro bs f l hN hb r hr
    by_cases hs : bs < l - f
    · rw [handleRange_of_split hb hs] at hr
      obtain ⟨h1, h2⟩ := splitMid_sub_bounds hb hs
      rcases List.mem_append.1 hr with hr' | hr'
      · exact ih bs f _ (by omega) hb r hr'
      · exact ih bs _ l (by omega) hb r hr'
    · rw [handleRange_of_leaf (fun hc => hs hc.2)] at hr
      simp at hr
      subst hr
      show l - f ≤ bs
      omega

/-- Every leaf range of handleRange has length at most block_size. -/
theorem handleRange_leaf_le {block_size first last : Int}
    (hb : 0 < block_size) :
    ∀ r ∈ handleRange block_size first last, r.2 - r.1 ≤ block_size :=
  handleRange_leaf_le_aux (last - first).toNat block_size first last
    le_rfl hb

/-- The number of leaf ranges of handleRange is the ceiling of
(last - first) / block_size (fuel-indexed induction). -/
theorem handleRange_length_aux (N : Nat) :
    ∀ block_size first last : Int, (last - first).toNat ≤ N →
      0 < block_size → 0 < last - first →
      ((handleRange block_size first last).length : Int) =
        (last - first + block_size - 1) / block_size := by
  induction N with
  | zero => intro bs f l hN hb hfl; omega
  | succ N ih =>
    intro bs f l hN hb hfl
    by_cases hs : bs < l - f
    · rw [handleRange_of_split hb hs]
      obtain ⟨h1, h2⟩ := splitMid_sub_bounds hb hs
      obtain ⟨q, hq⟩ := splitMid_dvd bs f l
      have hq1 : 1 ≤ q := by nlinarith
      have ihl : ((handleRange bs f (splitMid bs f l)).length : Int) =
          (splitMid bs f l - f + bs - 1) / bs :=
        ih bs f _ (by omega) hb (by omega)
      have ihr : ((handleRange bs (splitMid bs f l) l).length : Int) =
          (l - splitMid bs f l + bs - 1) / bs :=
        ih bs _ l (by omega) hb (by omega)
      have e1 : splitMid bs f l - f + bs - 1 = (bs - 1) + q * bs := by
        rw [hq]; ring
      have e2 : l - splitMid bs f l + bs - 1 =
          (l - f + bs - 1) + (-q) * bs := by
        rw [show l - splitMid bs f l = (l - f) - (splitMid bs f l - f) by
          ring, hq]
        ring
      rw [List.length_append]
      push_cast
      rw [ihl, ihr, e1, e2,
        Int.add_mul_ediv_right _ _ hb.ne.symm,
        Int.add_mul_ediv_right _ _ hb.ne.symm,
        Int.ediv_eq_zero_of_lt (by omega) (by omega)]
      ring
    · rw [handleRange_of_leaf (fun hc => hs hc.2)]
      have h1 : 1 ≤ (l - f + bs - 1) / bs := by
        rw [Int.le_ediv_iff_mul_le hb]
        omega
      have h2 : (l - f + bs - 1) / bs < 2 := by
        rw [Int.ediv_lt_iff_lt_mul hb]
        omega
      simp only [List.length_singleton]
      omega

/-- The number of leaf ranges of handleRange is the ceiling of
(last - first) / block_size. -/
theorem handleRange_length {block_size first last : Int}
    (hb : 0 < block_size) (hfl : 0 < last - first) :
    ((handleRange block_size first last).length : Int) =
      (last - first + block_size - 1) / block_size :=
  handleRange_length_aux (last - first).toNat block_size first last
    le_rfl hb hfl

/-- Ceiling rounding: for 0 <= a and 0 < b, (a + b - 1) / b * b is the
smallest multiple of b that is at least a. -/
theorem ceil_mul_bounds {a b : Int} (ha : 0 ≤ a) (hb : 0 < b) :
    a ≤ (a + b - 1) / b * b ∧ (a + b - 1) / b * b < a + b := by
  have hub := Int.ediv_mul_le (a + b - 1) hb.ne.symm
  have hlb := Int.lt_ediv_add_one_mul_self (a + b - 1) hb
  have hlb' := Int.lt_iff_add_one_le.mp hlb
  constructor
  · nlinarith [hlb']
  · linarith [hub]

/-- Membership in the list of scheduled indices of ParallelFor. -/
theorem mem_rangeMap {n : Nat} {i : Int} :
    i ∈ (List.range n).map (fun (k : Nat) => (k : Int) + 1) ↔
      1 ≤ i ∧ i ≤ (n : Int) := by
  simp only [List.mem_map, List.mem_range]
  constructor
  · rintro ⟨k, hk, hki⟩
    omega
  · intro hi
    refine ⟨(i - 1).toNat, by omega, ?_⟩
    show ((i - 1).toNat : Int) + 1 = i
    omega

/-- C1: ParallelFor(total, fn) invokes fn exactly once for each index
in [0, total) (the invocations are the direct ones plus the scheduled
ones, without duplicates); it performs nothing for total <= 0; for
total == 1 it runs fn(0) synchronously with no scheduling and no
barrier; for total > 1 it schedules exactly the indices 1..total-1,
runs fn(0) on the caller, and creates a Barrier expecting total - 1
notifications, one per scheduled invocation. -/
theorem parallelFor_uniform_correct (total : Int) :
    ((ParallelFor total).direct ++ (ParallelFor total).scheduled).Nodup
    ∧ (∀ i : Int,
        i ∈ (ParallelFor total).direct ++ (ParallelFor total).scheduled ↔
          0 ≤ i ∧ i < total)
    ∧ (total ≤ 0 → ParallelFor total = ⟨[], [], none⟩)
    ∧ (total = 1 → ParallelFor total = ⟨[], [0], none⟩)
    ∧ (1 < total →
        (ParallelFor total).direct = [0]
        ∧ (∀ i : Int,
            i ∈ (ParallelFor total).scheduled ↔ 1 ≤ i ∧ i < total)
        ∧ (ParallelFor total).barrier = some (total - 1).toNat
        ∧ (ParallelFor total).scheduled.length = (total - 1).toNat) := by
  rcases le_or_lt total 0 with h0 | h0
  · have e : ParallelFor total = ⟨[], [], none⟩ := by
      simp [ParallelFor, h0]
    rw [e]
    refine ⟨by simp, ?_, fun _ => rfl, ?_, ?_⟩
    · intro i
      simp
      omega
    · intro h
      omega
    · intro h
      omega
  · rcases eq_or_lt_of_le (by omega : (1:Int) ≤ total) with h1 | h1
    · have e : ParallelFor total = ⟨[], [0], none⟩ := by
        simp [ParallelFor, ← h1]
      rw [e]
      refine ⟨by simp, ?_, ?_, fun _ => rfl, ?_⟩
      · intro i
        simp
        omega
      · intro h
        omega
      · intro h
        omega
    · have e : ParallelFor total =
          ⟨(List.range (total - 1).toNat).map (fun (k : Nat) => (k : Int) + 1),
            [0], some (total - 1).toNat⟩ := by
        rw [ParallelFor, if_neg (by omega), if_neg (by omega)]
      rw [e]
      have hinj : Function.Injective (fun (k : Nat) => (k : Int) + 1) := by
        intro a b hab
        dsimp only at hab
        omega
      refine ⟨?_, ?_, ?_, ?_, ?_⟩
      · simp only [List.singleton_append, List.nodup_cons, mem_rangeMap]
        exact ⟨by omega, List.Nodup.map hinj (List.nodup_range _)⟩
      · intro i
        simp only [List.singleton_append, List.mem_cons, mem_rangeMap]
        omega
      · intro h
        omega
      · intro h
        omega
      · intro h1'
        refine ⟨rfl, ?_, rfl, by simp⟩
        intro i
        show i ∈ (List.range (total - 1).toNat).map
            (fun (k : Nat) => (k : Int) + 1) ↔ 1 ≤ i ∧ i < total
        rw [mem_rangeMap]
        omega

/-- C1 witness at total = 3. -/
theorem parallelFor_uniform_correct_w :
    (1:Int) < 3 ∧ (ParallelFor 3).direct = [0]
    ∧ (ParallelFor 3).barrier = some ((3:Int) - 1).toNat :=
  ⟨by norm_num,
   ((parallelFor_uniform_correct 3).2.2.2.2 (by norm_num)).1,
   ((parallelFor_uniform_correct 3).2.2.2.2 (by norm_num)).2.2.1⟩

/-- C2: NumShardsUsedByFixedBlockSizeScheduling returns 1 when
block_size <= 0, total <= 1, total <= block_size or NumThreads() == 1,
and otherwise returns ceil(total / block_size), characterised as the
unique S with block_size * (S - 1) < total <= block_size * S.  The
result is a pure function of (numThreads, total, block_size), so
repeated calls with the same arguments and a stable thread count agree
by construction. -/
theorem numShards_spec (numThreads total block_size : Int) :
    ((block_size ≤ 0 ∨ total ≤ 1 ∨ total ≤ block_size ∨ numThreads = 1) →
      NumShardsUsedByFixedBlockSizeScheduling numThreads total block_size = 1)
    ∧ (¬(block_size ≤ 0 ∨ total ≤ 1 ∨ total ≤ block_size ∨ numThreads = 1) →
      1 ≤ NumShardsUsedByFixedBlockSizeScheduling numThreads total block_size
      ∧ block_size *
          (NumShardsUsedByFixedBlockSizeScheduling numThreads total block_size
            - 1) < total
      ∧ total ≤ block_size *
          NumShardsUsedByFixedBlockSizeScheduling numThreads total block_size)
    := by
  constructor
  · intro h
    simp [NumShardsUsedByFixedBlockSizeScheduling, h]
  · intro h
    have e : NumShardsUsedByFixedBlockSizeScheduling numThreads total block_size
        = (total + block_size - 1) / block_size := by
      rw [NumShardsUsedByFixedBlockSizeScheduling, if_neg h]
      push_neg at h
      exact Int.tdiv_eq_ediv (by omega) (by omega)
    push_neg at h
    obtain ⟨hb, ht, htb, hnt⟩ := h
    rw [e]
    have h1 : 1 ≤ (total + block_size - 1) / block_size := by
      rw [Int.le_ediv_iff_mul_le (by omega : (0:Int) < block_size)]
      omega
    have hub := Int.ediv_mul_le (total + block_size - 1)
      (by omega : block_size ≠ 0)
    have hlb := Int.lt_ediv_add_one_mul_self (total + block_size - 1)
      (by omega : (0:Int) < block_size)
    have hlb' := Int.lt_iff_add_one_le.mp hlb
    exact ⟨h1, by linarith, by linarith⟩

/-- C2 witness at numThreads = 4, total = 10, block_size = 3 (the
shard count is ceil(10/3) = 4). -/
theorem numShards_spec_w :
    ¬((3:Int) ≤ 0 ∨ (10:Int) ≤ 1 ∨ (10:Int) ≤ 3 ∨ (4:Int) = 1)
    ∧ 3 * (NumShardsUsedByFixedBlockSizeScheduling 4 10 3 - 1) < 10
    ∧ (10:Int) ≤ 3 * NumShardsUsedByFixedBlockSizeScheduling 4 10 3 :=
  ⟨by norm_num,
   ((numShards_spec 4 10 3).2 (by norm_num)).2.1,
   ((numShards_spec 4 10 3).2 (by norm_num)).2.2⟩

/-- C3 counterexample: with a single-thread pool (NumThreads() == 1),
total = 10 > 0 and block_size = 3 > 0, the shard count is 1 and the
single range passed to fn is (0, 10), whose length 10 exceeds
block_size = 3; so the claim that every leaf range has length at most
block_size fails as stated. -/
theorem fixedBlock_leaf_bound_counterexample :
    (ParallelForFixedBlockSizeScheduling 1 10 3).leaves = [(0, 10)]
    ∧ ¬((10:Int) - 0 ≤ 3) := by decide

/-- C3 amended: for total > 0 and block_size > 0, the ranges passed to
fn by ParallelForFixedBlockSizeScheduling tile [0, total) exactly (no
gaps, no overlaps), their number equals
NumShardsUsedByFixedBlockSizeScheduling(total, block_size); when that
shard count is 1, fn is called exactly once as fn(0, total)
synchronously on the caller, and in every other case (shard count
greater than 1) every leaf range has length at most block_size. -/
theorem fixedBlock_spec_amended (numThreads total block_size : Int)
    (ht : 0 < total) (hb : 0 < block_size) :
    (∀ x : Int, (0 ≤ x ∧ x < total) ↔
      ∃ r, r ∈ (ParallelForFixedBlockSizeScheduling
          numThreads total block_size).leaves ∧ r.1 ≤ x ∧ x < r.2)
    ∧ List.Pairwise (fun r s => r.2 ≤ s.1)
        (ParallelForFixedBlockSizeScheduling numThreads total block_size).leaves
    ∧ (((ParallelForFixedBlockSizeScheduling
          numThreads total block_size).leaves.length : Int)
        = NumShardsUsedByFixedBlockSizeScheduling numThreads total block_size)
    ∧ (NumShardsUsedByFixedBlockSizeScheduling numThreads total block_size = 1 →
        ParallelForFixedBlockSizeScheduling numThreads total block_size
          = ⟨[(0, total)], true⟩)
    ∧ (NumShardsUsedByFixedBlockSizeScheduling numThreads total block_size ≠ 1 →
        ∀ r ∈ (ParallelForFixedBlockSizeScheduling
            numThreads total block_size).leaves,
          r.2 - r.1 ≤ block_size) := by
  by_cases hS :
      NumShardsUsedByFixedBlockSizeScheduling numThreads total block_size = 1
  · have e : ParallelForFixedBlockSizeScheduling numThreads total block_size
        = ⟨[(0, total)], true⟩ := by
      rw [ParallelForFixedBlockSizeScheduling, if_pos hS]
    rw [e]
    refine ⟨?_, by simp, by simpa using hS.symm, fun _ => rfl,
      fun hn => absurd hS hn⟩
    intro x
    simp
  · have e : ParallelForFixedBlockSizeScheduling numThreads total block_size
        = ⟨handleRange block_size 0 total,
            decide (NumShardsUsedByFixedBlockSizeScheduling
              numThreads total block_size ≤ numThreads)⟩ := by
      rw [ParallelForFixedBlockSizeScheduling, if_neg hS]
    have hcond : ¬(block_size ≤ 0 ∨ total ≤ 1 ∨ total ≤ block_size ∨
        numThreads = 1) := by
      intro hc
      exact hS ((numShards_spec numThreads total block_size).1 hc)
    push_neg at hcond
    obtain ⟨hb2, ht1, htb, hnt⟩ := hcond
    have htiles : Tiles 0 total (handleRange block_size 0 total) :=
      handleRange_tiles hb (by omega)
    have hlen : ((handleRange block_size 0 total).length : Int)
        = (total - 0 + block_size - 1) / block_size :=
      handleRange_length hb (by omega)
    have hshards : NumShardsUsedByFixedBlockSizeScheduling
        numThreads total block_size = (total + block_size - 1) / block_size := by
      rw [NumShardsUsedByFixedBlockSizeScheduling,
        if_neg (by push_neg; exact ⟨hb2, ht1, htb, hnt⟩)]
      exact Int.tdiv_eq_ediv (by omega) (by omega)
    rw [e]
    refine ⟨?_, Tiles.pairwise htiles, ?_, fun h1 => absurd h1 hS, ?_⟩
    · intro x
      simpa using Tiles.mem_iff htiles x
    · rw [hshards]
      simpa using hlen
    · intro _ r hr
      exact handleRange_leaf_le hb r hr

/-- C3 witness at numThreads = 4, total = 7, block_size = 2 (shard
count ceil(7/2) = 4). -/
theorem fixedBlock_spec_amended_w :
    (0:Int) < 7 ∧ (0:Int) < 2
    ∧ (((ParallelForFixedBlockSizeScheduling 4 7 2).leaves.length : Int)
        = NumShardsUsedByFixedBlockSizeScheduling 4 7 2) :=
  ⟨by norm_num, by norm_num,
   (fixedBlock_spec_amended 4 7 2 (by norm_num) (by norm_num)).2.2.1⟩

/-- C4 counterexample: at first = 0, last = 5, block_size = 2 the code
computes the split point first + ((last-first)/2 + block_size - 1) /
block_size * block_size = 2, while the formula claimed, first +
ceil_div(last-first, 2*block_size)*block_size = 0 + ceil(5/4)*2 = 4,
gives 4; the claimed snapping at or after the arithmetic midpoint 2.5
is also violated by the actual value 2. -/
theorem splitMid_formula_counterexample :
    splitMid 2 0 5 = 2
    ∧ (0:Int) + (5 - 0 + 2 * 2 - 1) / (2 * 2) * 2 = 4
    ∧ (2:Int) ≠ 4 := by decide

/-- C4 amended: for every range with last - first > block_size > 0, the
loop forks off the right half [mid, last) and continues on the left
half [first, mid), where the split point mid is the midpoint snapped to
the nearest multiple of block_size at or after the FLOOR of the
arithmetic midpoint, i.e. mid - first is the smallest multiple of
block_size that is at least (last - first) / 2 (truncated division). -/
theorem splitMid_spec_amended (block_size first last : Int)
    (hb : 0 < block_size) (hL : block_size < last - first) :
    (handleRange block_size first last =
      handleRange block_size first (splitMid block_size first last) ++
        handleRange block_size (splitMid block_size first last) last)
    ∧ block_size ∣ (splitMid block_size first last - first)
    ∧ (last - first).tdiv 2 ≤ splitMid block_size first last - first
    ∧ splitMid block_size first last - first <
        (last - first).tdiv 2 + block_size := by
  refine ⟨handleRange_of_split hb hL, splitMid_dvd _ _ _, ?_, ?_⟩ <;>
  · have hLnn : (0:Int) ≤ last - first := by omega
    have htd2 : (last - first).tdiv 2 = (last - first) / 2 :=
      Int.tdiv_eq_ediv hLnn (by norm_num)
    have hh_nn : (0:Int) ≤ (last - first) / 2 :=
      Int.ediv_nonneg hLnn (by norm_num)
    have htdn : ((last - first) / 2 + block_size - 1).tdiv block_size =
        ((last - first) / 2 + block_size - 1) / block_size :=
      Int.tdiv_eq_ediv (by omega) hb.le
    have hmid : splitMid block_size first last - first =
        ((last - first) / 2 + block_size - 1) / block_size * block_size := by
      unfold splitMid
      rw [htd2, htdn]
      ring
    have hbounds := ceil_mul_bounds hh_nn hb
    rw [htd2, hmid]
    omega

/-- C4 witness at block_size = 2, first = 0, last = 5 (the split point
is 2 = the floored midpoint rounded up to a multiple of 2). -/
theorem splitMid_spec_amended_w :
    (0:Int) < 2 ∧ (2:Int) < 5 - 0
    ∧ ((5:Int) - 0).tdiv 2 ≤ splitMid 2 0 5 - 0
    ∧ splitMid 2 0 5 - 0 < ((5:Int) - 0).tdiv 2 + 2 :=
  ⟨by norm_num, by norm_num,
   (splitMid_spec_amended 2 0 5 (by norm_num) (by norm_num)).2.2.1,
   (splitMid_spec_amended 2 0 5 (by norm_num) (by norm_num)).2.2.2⟩

/-- C5: the dispatching ParallelFor over SchedulingParams is a silent
no-op (zero fn invocations, normal return, no error) when the field
required by the declared strategy is absent, and otherwise routes
kAdaptive to the cost-based adaptive path and kFixedBlockSize to
ParallelForFixedBlockSizeScheduling. -/
theorem dispatch_missing_field_noop (numThreads total cv bv : Int)
    (c bs : Option Int) :
    ParallelForDispatch numThreads total
        ⟨SchedulingStrategy.kAdaptive, none, bs⟩ = DispatchResult.noop
    ∧ ParallelForDispatch numThreads total
        ⟨SchedulingStrategy.kFixedBlockSize, c, none⟩ = DispatchResult.noop
    ∧ dispatchInvocationCount (ParallelForDispatch numThreads total
        ⟨SchedulingStrategy.kAdaptive, none, bs⟩) = some 0
    ∧ dispatchInvocationCount (ParallelForDispatch numThreads total
        ⟨SchedulingStrategy.kFixedBlockSize, c, none⟩) = some 0
    ∧ ParallelForDispatch numThreads total
        ⟨SchedulingStrategy.kAdaptive, some cv, bs⟩
      = DispatchResult.adaptive total cv
    ∧ ParallelForDispatch numThreads total
        ⟨SchedulingStrategy.kFixedBlockSize, c, some bv⟩
      = DispatchResult.fixedBlock
          (ParallelForFixedBlockSizeScheduling numThreads total bv) :=
  ⟨rfl, rfl, rfl, rfl, rfl, rfl⟩

/-- C6: CreateThreadPool substitutes max(1, hardware_concurrency / 2)
for a requested size <= 0, keeps a positive requested size, returns the
null pool exactly when the defaulted size is 1, and returns a pool with
the defaulted thread count for every defaulted size >= 2. -/
theorem createThreadPool_spec (hardware_concurrency : Nat)
    (thread_pool_size : Int) :
    (thread_pool_size ≤ 0 →
      defaultedPoolSize hardware_concurrency thread_pool_size
        = max 1 ((hardware_concurrency : Int) / 2))
    ∧ (0 < thread_pool_size →
      defaultedPoolSize hardware_concurrency thread_pool_size
        = thread_pool_size)
    ∧ (defaultedPoolSize hardware_concurrency thread_pool_size = 1 →
      CreateThreadPool hardware_concurrency thread_pool_size = none)
    ∧ (2 ≤ defaultedPoolSize hardware_concurrency thread_pool_size →
      CreateThreadPool hardware_concurrency thread_pool_size
        = some (defaultedPoolSize hardware_concurrency thread_pool_size)) := by
  refine ⟨?_, ?_, ?_, ?_⟩
  · intro h
    rw [defaultedPoolSize, if_pos h]
  · intro h
    rw [defaultedPoolSize, if_neg (by omega)]
  · intro h
    rw [CreateThreadPool, if_pos h]
  · intro h
    rw [CreateThreadPool, if_neg (by omega)]

/-- C6 witness: hardware_concurrency = 8 and requested size -1 default
to max(1, 4) = 4 and yield a pool of 4 threads. -/
theorem createThreadPool_spec_w :
    (-1:Int) ≤ 0
    ∧ defaultedPoolSize 8 (-1) = max 1 (((8:Nat) : Int) / 2)
    ∧ CreateThreadPool 8 (-1) = some (defaultedPoolSize 8 (-1)) :=
  ⟨by norm_num,
   (createThreadPool_spec 8 (-1)).1 (by norm_num),
   (createThreadPool_spec 8 (-1)).2.2.2 (by decide)⟩

/-- C7: in the ParallelForWithWorkerId variants the worker id passed to
fn is CurrentThreadId() + 1; under the engine contract that
CurrentThreadId() is -1 for a non-worker caller and in [0, NumThreads())
for workers, the observed id lies in [0, NumThreads()], and a
synchronous contribution by the calling thread (CurrentThreadId() = -1)
observes id 0. -/
theorem workerId_spec (currentThreadId numThreads : Int)
    (h1 : -1 ≤ currentThreadId) (h2 : currentThreadId < numThreads) :
    (0 ≤ workerId currentThreadId ∧ workerId currentThreadId ≤ numThreads)
    ∧ (currentThreadId = -1 → workerId currentThreadId = 0) := by
  unfold workerId
  omega

/-- C7 witness: the calling thread (CurrentThreadId() = -1) on a
4-thread pool observes worker id 0. -/
theorem workerId_spec_w :
    (-1:Int) ≤ -1 ∧ (-1:Int) < 4 ∧ workerId (-1) = 0 :=
  ⟨le_refl _, by norm_num,
   (workerId_spec (-1) 4 (by norm_num) (by norm_num)).2 rfl⟩

/-- C8: TransformRangeConcurrently(block_size, total, fn) is exactly
the dispatching ParallelFor with a kFixedBlockSize SchedulingParams
carrying block_size, hence exactly
ParallelForFixedBlockSizeScheduling(total, block_size, fn); and
NumShardsUsedByTransformRangeConcurrently(block_size, total) equals
NumShardsUsedByFixedBlockSizeScheduling(total, block_size). -/
theorem transformRange_alias (numThreads block_size total : Int) :
    TransformRangeConcurrently numThreads block_size total
      = ParallelForDispatch numThreads total
          ⟨SchedulingStrategy.kFixedBlockSize, none, some block_size⟩
    ∧ TransformRangeConcurrently numThreads block_size total
      = DispatchResult.fixedBlock
          (ParallelForFixedBlockSizeScheduling numThreads total block_size)
    ∧ NumShardsUsedByTransformRangeConcurrently numThreads block_size total
      = NumShardsUsedByFixedBlockSizeScheduling numThreads total block_size :=
  ⟨rfl, rfl, rfl⟩

/-- C9: SetStealPartitions on a pool that does not own its engine fails
its fatal precondition and forwards nothing to the engine; on a pool
that owns its engine the partitions are forwarded unchanged.  Schedule
with an unset closure fails its fatal precondition and enqueues
nothing; with a set closure exactly that closure is enqueued. -/
theorem stealPartitions_schedule_preconditions
    (partitions : List (Nat × Nat)) (f : Nat) :
    SetStealPartitions false partitions
      = Except.error "ORT_ENFORCE failed: eigen_threadpool_ != nullptr"
    ∧ SetStealPartitions true partitions = Except.ok partitions
    ∧ Schedule (none : Option Nat)
      = Except.error "ORT_ENFORCE failed: fn != nullptr"
    ∧ Schedule (some f) = Except.ok f :=
  ⟨rfl, rfl, rfl, rfl⟩

/-- C10: for total <= 0 (zero or negative) and any block_size, the
shard count is 1, so ParallelForFixedBlockSizeScheduling still invokes
fn exactly once, with arguments (0, total), synchronously on the
caller — it does not skip the call the way the uniform-unit ParallelFor
does. -/
theorem fixedBlock_nonpositive_total (numThreads total block_size : Int)
    (h : total ≤ 0) :
    ParallelForFixedBlockSizeScheduling numThreads total block_size
      = ⟨[(0, total)], true⟩ := by
  have hS : NumShardsUsedByFixedBlockSizeScheduling
      numThreads total block_size = 1 := by
    rw [NumShardsUsedByFixedBlockSizeScheduling, if_pos (by omega)]
  rw [ParallelForFixedBlockSizeScheduling, if_pos hS]

/-- C10 witness at numThreads = 4, total = -3, block_size = 5. -/
theorem fixedBlock_nonpositive_total_w :
    (-3:Int) ≤ 0
    ∧ ParallelForFixedBlockSizeScheduling 4 (-3) 5 = ⟨[(0, -3)], true⟩ :=
  ⟨by norm_num, fixedBlock_nonpositive_total 4 (-3) 5 (by norm_num)⟩

end OnnxThreadPool
